import Mathlib

/-!
# Position synchronisation and double buffering of the raycaster

A shallow embedding of the peer registry and the receive path of
`src/3/src/main.cpp` and `src/4/src/main.cpp`, of the event-driven sender of
`src/4/src/main.cpp`, and of the frame buffer of `src/2/src/DoubleBuffer.cpp`
(class layout from `src/4/include/DoubleBuffer.h`).

Conventions: a C++ `int` is an `Int` and every operation that leaves the 32-bit
range, divides by zero or indexes a vector out of bounds has no defined result
and is modelled by `none`; `unsigned int` and `size_t` values are `Nat`;
`std::string` is `String`; `std::map<std::string, int>` is an association list
with unique keys; `std::vector<int>` is a `List Int`; a `double` is an element
of a type parameter, since the code only moves coordinates around.
-/

namespace Raycasting

/-! ## Machine integers -/

/-- Largest value of a 32-bit `int`. -/
def INT_MAX : Int := 2147483647

/-- Smallest value of a 32-bit `int`. -/
def INT_MIN : Int := -2147483648

/-- Whether a mathematical integer is representable as an `int`. -/
def inIntRange (v : Int) : Bool := decide (INT_MIN ≤ v ∧ v ≤ INT_MAX)

/-- Conversion `int → size_t` (64 bits): the value modulo `2^64`. -/
def intToSizeT (v : Int) : Nat := (v % 18446744073709551616).toNat

/-- Conversion of an unsigned value to `int`: the value modulo `2^32`, read in
two's complement. -/
def toInt (n : Nat) : Int :=
  if n % 4294967296 < 2147483648 then ((n % 4294967296 : Nat) : Int)
  else ((n % 4294967296 : Nat) : Int) - 4294967296

/-- Conversion `int → unsigned int`: the value modulo `2^32`. -/
def toUnsigned (v : Int) : Nat := (v % 4294967296).toNat

/-! ## Peer registry (`nextPlayerIndex`, `playersIndexes`) -/

/-- The call `playersIndexes.find(key)`: `none` stands for `end()`. -/
def mapFind : List (String × Int) → String → Option Int
  | [], _ => none
  | (k, v) :: rest, key => if k = key then some v else mapFind rest key

/-- The assignment `playersIndexes[key] = value`: overwrites the entry of an
existing key, inserts a new entry otherwise. -/
def mapAssign : List (String × Int) → String → Int → List (String × Int)
  | [], key, value => [(key, value)]
  | (k, v) :: rest, key, value =>
    if k = key then (k, value) :: rest else (k, v) :: mapAssign rest key value

/-- The read `playersIndexes[key]`: returns the value of an existing key; a
missing key is inserted with value `0` first, as `operator[]` does. -/
def mapIndex (m : List (String × Int)) (key : String) : List (String × Int) × Int :=
  match mapFind m key with
  | some v => (m, v)
  | none => (mapAssign m key 0, 0)

/-- The two variables of `main` that form the registry. -/
structure Registry where
  nextPlayerIndex : Int
  playersIndexes : List (String × Int)
deriving DecidableEq

/-- The registry at the start of `main`: `nextPlayerIndex = 0`, empty map. -/
def emptyRegistry : Registry := ⟨0, []⟩

/-- The registration of one sender, `src/3/src/main.cpp` lines 82-86 and
`src/4/src/main.cpp` lines 188-193:
```
if (playersIndexes.find(sender) == playersIndexes.end()) {
    playersIndexes[sender] = nextPlayerIndex++;
    nextPlayerIndex %= nbPlayers;
}
int index = playersIndexes[sender];
```
`nbPlayers` is a `size_t`, so `%=` converts the counter to `size_t`, takes the
remainder and converts back to `int`. Returns the new registry and `index`. -/
def registerSender (nbPlayers : Nat) (r : Registry) (sender : String) :
    Option (Registry × Int) :=
  let afterIf : Option Registry :=
    if (mapFind r.playersIndexes sender).isNone then
      if INT_MAX < r.nextPlayerIndex + 1 then none
      else if nbPlayers = 0 then none
      else some
        { playersIndexes := mapAssign r.playersIndexes sender r.nextPlayerIndex
          nextPlayerIndex := toInt (intToSizeT (r.nextPlayerIndex + 1) % nbPlayers) }
    else some r
  match afterIf with
  | none => none
  | some r1 =>
    let read := mapIndex r1.playersIndexes sender
    some ({ r1 with playersIndexes := read.1 }, read.2)

/-- Registrations of a sequence of senders in order; returns the final registry
and the index obtained by each registration. -/
def registerAll (nbPlayers : Nat) : Registry → List String → Option (Registry × List Int)
  | r, [] => some (r, [])
  | r, sender :: rest =>
    match registerSender nbPlayers r sender with
    | none => none
    | some (r1, index) =>
      match registerAll nbPlayers r1 rest with
      | none => none
      | some (r2, indexes) => some (r2, index :: indexes)

/-- Number of distinct identities that occur in `senders` before the first
occurrence of `sender`: the rank of `sender` in first-seen order, from 0. -/
def firstSeenRank (senders : List String) (sender : String) : Nat :=
  (senders.take (senders.indexOf sender)).toFinset.card

/-- Invariant of the registry after the identities of `pre` have been registered
from the empty registry with capacity `nbPlayers`. -/
def RegistryInv (nbPlayers : Nat) (r : Registry) (pre : List String) : Prop :=
  (∀ s, mapFind r.playersIndexes s =
      if s ∈ pre then some (((firstSeenRank pre s % nbPlayers : Nat) : Int)) else none) ∧
    r.nextPlayerIndex = ((pre.toFinset.card % nbPlayers : Nat) : Int)

/-! ## Frame buffer (`DoubleBuffer`, `src/2/src/DoubleBuffer.cpp`) -/

/-- The data members of the class `DoubleBuffer`, as declared in
`src/4/include/DoubleBuffer.h` lines 75-78 (the mutex of `src/2` carries no
data). -/
structure DoubleBuffer where
  width : Int
  height : Int
  frontBuffer : List Int
  backBuffer : List Int
deriving DecidableEq

/-- The constructor `DoubleBuffer::DoubleBuffer(int width, int height)`: both
vectors get `width * height` zero cells. The product is an `int`; when negative,
its conversion to `size_t` exceeds what a vector can hold and the constructor
throws. -/
def DoubleBuffer.init (width height : Int) : Option DoubleBuffer :=
  if !inIntRange (width * height) then none
  else if width * height < 0 then none
  else some
    { width := width
      height := height
      frontBuffer := List.replicate (width * height).toNat 0
      backBuffer := List.replicate (width * height).toNat 0 }

/-- The accessor `DoubleBuffer::getWidth`. -/
def DoubleBuffer.getWidth (db : DoubleBuffer) : Int := db.width

/-- The accessor `DoubleBuffer::getHeight`. -/
def DoubleBuffer.getHeight (db : DoubleBuffer) : Int := db.height

/-- Modelled from the spec: the body of `DoubleBuffer::getBackBuffer` is not in
the sources, only its declaration ("Returns the back buffer"); it gives read
access to the stable buffer. -/
def DoubleBuffer.getBackBuffer (db : DoubleBuffer) : List Int := db.backBuffer

/-- The statement `frontBuffer[x + y * width] = color;` of `drawVertLine` and
`drawPixel`: `color` is an `unsigned int` and the cell an `int`. -/
def DoubleBuffer.storeFront (db : DoubleBuffer) (x y : Int) (color : Nat) :
    Option DoubleBuffer :=
  if !inIntRange (y * db.width) then none
  else if !inIntRange (x + y * db.width) then none
  else if x + y * db.width < 0 then none
  else if db.frontBuffer.length ≤ (x + y * db.width).toNat then none
  else some { db with frontBuffer := db.frontBuffer.set (x + y * db.width).toNat (toInt color) }

/-- The method `DoubleBuffer::drawPixel(int x, int y, unsigned int color)`; the
lock guard has no effect on the data. -/
def DoubleBuffer.drawPixel (db : DoubleBuffer) (x y : Int) (color : Nat) :
    Option DoubleBuffer :=
  db.storeFront x y color

/-- The method `DoubleBuffer::swap`: `frontBuffer.swap(backBuffer)`. -/
def DoubleBuffer.swap (db : DoubleBuffer) : DoubleBuffer :=
  { db with frontBuffer := db.backBuffer, backBuffer := db.frontBuffer }

/-- The colour that `drawVertLine` stores for a texel colour:
`if (darken) color = (color >> 1) & 8355711;`. -/
def shade (darken : Bool) (color : Nat) : Nat :=
  if darken then (color >>> 1) &&& 8355711 else color

/-- The loop of `DoubleBuffer::drawVertLine`, `for (int y = yStart; y <= yEnd; y++)`,
with `n` iterations left, of which this is number `k`. The class `Texture` and
the floating-point texture coordinate are not modelled: `texel k` stands for the
value `texture.get(texX, int(texY))` of iteration `k`, converted to
`unsigned int`. -/
def DoubleBuffer.drawVertLineLoop (x : Int) (texel : Nat → Nat) (darken : Bool) :
    Nat → Nat → Int → DoubleBuffer → Option DoubleBuffer
  | 0, _, _, db => some db
  | n + 1, k, y, db =>
    match db.storeFront x y (shade darken (texel k % 4294967296)) with
    | none => none
    | some db1 =>
      if !inIntRange (y + 1) then none
      else DoubleBuffer.drawVertLineLoop x texel darken n (k + 1) (y + 1) db1

/-- The method `DoubleBuffer::drawVertLine`: one store per row from `yStart` to
`yEnd`. -/
def DoubleBuffer.drawVertLine (db : DoubleBuffer) (x yStart yEnd : Int) (texel : Nat → Nat)
    (darken : Bool) : Option DoubleBuffer :=
  DoubleBuffer.drawVertLineLoop x texel darken (yEnd - yStart + 1).toNat 0 yStart db

/-- Class invariant of `DoubleBuffer`: both vectors have `width * height` cells
and the product is a non-negative `int`. -/
def DoubleBuffer.WellFormed (db : DoubleBuffer) : Prop :=
  0 ≤ db.width * db.height ∧ db.width * db.height ≤ INT_MAX ∧
    db.frontBuffer.length = (db.width * db.height).toNat ∧
    db.backBuffer.length = (db.width * db.height).toNat

instance DoubleBuffer.decidableWellFormed (db : DoubleBuffer) : Decidable db.WellFormed := by
  unfold DoubleBuffer.WellFormed
  infer_instance

/-! ### Lock discipline of the frame buffer -/

/-- What an operation of `DoubleBuffer` does with the mutex and the buffers, in
program order. -/
inductive BufferEvent where
  | acquire
  | release
  | accessFront
  | accessBack
deriving DecidableEq

/-- Events of `drawVertLine` (`src/2/src/DoubleBuffer.cpp` lines 11-23): one
store into `frontBuffer` per row; the body declares no lock guard. -/
def drawVertLineEvents (yStart yEnd : Int) : List BufferEvent :=
  List.replicate (yEnd - yStart + 1).toNat BufferEvent.accessFront

/-- Events of `drawPixel` (lines 25-29): the lock guard is built first and
destroyed at the end of the body. -/
def drawPixelEvents : List BufferEvent :=
  [BufferEvent.acquire, BufferEvent.accessFront, BufferEvent.release]

/-- Events of `swap` (lines 31-35): under the lock guard,
`frontBuffer.swap(backBuffer)` touches both vectors. -/
def swapEvents : List BufferEvent :=
  [BufferEvent.acquire, BufferEvent.accessFront, BufferEvent.accessBack, BufferEvent.release]

/-- Whether every access to `frontBuffer` in a sequence of events happens while
the mutex is held; `held` is the state of the mutex at the start. -/
def frontGuarded : Bool → List BufferEvent → Bool
  | _, [] => true
  | _, BufferEvent.acquire :: rest => frontGuarded true rest
  | _, BufferEvent.release :: rest => frontGuarded false rest
  | held, BufferEvent.accessFront :: rest => held && frontGuarded held rest
  | held, BufferEvent.accessBack :: rest => frontGuarded held rest

/-! ## Receive path (`src/3/src/main.cpp` lines 77-90, `src/4/src/main.cpp` lines 180-195) -/

/-- The struct `UDPData` of `src/2/include/UDPReceiver.h`; `α` stands for
`double`, the position is the pair of coordinates. -/
structure UDPData (α : Type) where
  valid : Bool
  sender : String
  position : α × α
deriving DecidableEq

/-- Modelled from the spec: the class `Map` and its method `movePlayer(index, x, y)`
are not in the sources; by the spec the store maps each index below the
capacity to a position and `apply(index, sample)` overwrites the slot of
`index`. -/
def movePlayer {α : Type} (store : List (α × α)) (index : Int) (x y : α) : List (α × α) :=
  if 0 ≤ index then store.set index.toNat (x, y) else store

/-- What the receive path reads and writes: the registry and the positions of
the other players held by `map`. -/
structure ReceiveState (α : Type) where
  registry : Registry
  map : List (α × α)
deriving DecidableEq

/-- The handling of one received datagram, `src/3/src/main.cpp` lines 80-88:
an invalid one is skipped, a valid one is registered and applied with
`map.movePlayer(index, received.position.x(), received.position.y())`. -/
def applyReceived {α : Type} (nbPlayers : Nat) (st : ReceiveState α) (received : UDPData α) :
    Option (ReceiveState α) :=
  if received.valid then
    match registerSender nbPlayers st.registry received.sender with
    | none => none
    | some (r1, index) =>
      some ⟨r1, movePlayer st.map index received.position.1 received.position.2⟩
  else some st

/-- The receiver thread of `src/3/src/main.cpp` lines 77-90,
`while (running) { received = udpReceiver.receive(); … }`. Each element of the
input gives the value of `running` read by one loop test and the datagram
`receive()` returns in that iteration. The result tells whether the thread
function has returned (`true`) or waits for further input (`false`). -/
def receiverThread {α : Type} (nbPlayers : Nat) :
    List (Bool × UDPData α) → ReceiveState α → Option (Bool × ReceiveState α)
  | [], st => some (false, st)
  | (running, received) :: rest, st =>
    if !running then some (true, st)
    else
      match applyReceived nbPlayers st received with
      | none => none
      | some st1 => receiverThread nbPlayers rest st1

/-- The drain loop of one frame of `src/4/src/main.cpp` lines 181-195,
`for (size_t i = 0; i < nbPlayers; i++)`, with `n` iterations left: it stops at
the first invalid datagram. Returns the state and the datagrams not consumed. -/
def drainLoop {α : Type} (nbPlayers : Nat) :
    Nat → List (UDPData α) → ReceiveState α → Option (ReceiveState α × List (UDPData α))
  | 0, pending, st => some (st, pending)
  | _ + 1, [], st => some (st, [])
  | n + 1, data :: pending, st =>
    if !data.valid then some (st, pending)
    else
      match applyReceived nbPlayers st data with
      | none => none
      | some st1 => drainLoop nbPlayers n pending st1

/-- The receive part of successive frames of the frame loop of
`src/4/src/main.cpp` (`while (true)`, lines 104-196): every frame runs the drain
loop once. The socket hands out datagrams in arrival order: in a frame it holds
those left over by the earlier frames followed by those arrived since, one list
of `arrivals` per frame. Returns the state and the datagrams still waiting. -/
def drainFrames {α : Type} (nbPlayers : Nat) :
    List (List (UDPData α)) → List (UDPData α) → ReceiveState α →
      Option (ReceiveState α × List (UDPData α))
  | [], pending, st => some (st, pending)
  | arrived :: later, pending, st =>
    match drainLoop nbPlayers nbPlayers (pending ++ arrived) st with
    | none => none
    | some (st1, pending1) => drainFrames nbPlayers later pending1 st1

/-- Valid or not, the datagrams applied one after the other. -/
def applySamples {α : Type} (nbPlayers : Nat) :
    ReceiveState α → List (UDPData α) → Option (ReceiveState α)
  | st, [] => some st
  | st, received :: rest =>
    match applyReceived nbPlayers st received with
    | none => none
    | some st1 => applySamples nbPlayers st1 rest

/-- Samples of a sequence whose identity is bound to `index` in the registry. -/
def samplesOfIndex {α : Type} (r : Registry) (index : Int) (samples : List (UDPData α)) :
    List (UDPData α) :=
  samples.filter (fun e => decide (mapFind r.playersIndexes e.sender = some index))

/-! ## Event-driven sender (`src/4/src/main.cpp` lines 80-100 and 123-178) -/

/-- Where the sender thread stands: at the test of `while (running)`, inside
`sendCondVar.wait`, or returned. -/
inductive SenderPc where
  | loopTest
  | waiting
  | done
deriving DecidableEq

/-- The variables shared by the frame loop and the sender thread, with the log
of the datagrams sent so far, each with the number of the `UDPSender` used. -/
structure SenderWorld (α : Type) where
  running : Bool
  positionChanged : Bool
  playerPos : α × α
  sent : List (Nat × α × α)
  pc : SenderPc
deriving DecidableEq

/-- The loop `for (auto &udpSender : udpSenders) udpSender->send(player.posX(), player.posY());`
over `nbSenders` senders. -/
def sendToAll {α : Type} (nbSenders : Nat) (pos : α × α) : List (Nat × α × α) :=
  (List.range nbSenders).map (fun i => (i, pos.1, pos.2))

/-- One scheduling of the sender thread (lines 86-100). It holds `sendMutex`
except inside the wait, so each case runs without a write of the frame loop to
`positionChanged` or `running` in between. At the loop test it enters the wait
or leaves the loop; in the wait it stays blocked while the predicate
`positionChanged || !running` is false, otherwise it wakes: it breaks when
`running` is false, else sends to every peer, clears `positionChanged` and goes
back to the loop test. -/
def senderStep {α : Type} (nbSenders : Nat) (w : SenderWorld α) : SenderWorld α :=
  match w.pc with
  | SenderPc.loopTest =>
    if w.running then { w with pc := SenderPc.waiting } else { w with pc := SenderPc.done }
  | SenderPc.waiting =>
    if w.positionChanged || !w.running then
      if !w.running then { w with pc := SenderPc.done }
      else
        { w with
          sent := w.sent ++ sendToAll nbSenders w.playerPos
          positionChanged := false
          pc := SenderPc.loopTest }
    else w
  | SenderPc.done => w

/-- The stop signal of the frame loop, under `sendMutex`:
`running = false; sendCondVar.notify_one();` (lines 170-174). -/
def signalStop {α : Type} (w : SenderWorld α) : SenderWorld α :=
  { w with running := false }

end Raycasting

namespace Raycasting

/-! ## Registry: lemmas -/

theorem mapFind_mapAssign (m : List (String × Int)) (key key2 : String) (value : Int) :
    mapFind (mapAssign m key value) key2 =
      if key = key2 then some value else mapFind m key2 := by
  induction m with
  | nil => simp [mapAssign, mapFind]
  | cons e rest ih =>
    obtain ⟨k, v⟩ := e
    by_cases hk : k = key
    · subst hk
      by_cases h2 : k = key2 <;> simp [mapAssign, mapFind, h2]
    · by_cases h2 : k = key2
      · subst h2
        simp [mapAssign, mapFind, hk, Ne.symm hk]
      · simp [mapAssign, mapFind, hk, h2, ih]

theorem counter_wrap (nbPlayers : Nat) (v : Int) (h0 : 0 ≤ v) (h1 : v + 1 ≤ INT_MAX) :
    toInt (intToSizeT (v + 1) % nbPlayers) = (((v + 1).toNat % nbPlayers : Nat) : Int) := by
  have hmax : v + 1 ≤ 2147483647 := h1
  have hconv : intToSizeT (v + 1) = (v + 1).toNat := by
    unfold intToSizeT
    congr 1
    omega
  have hlt : (v + 1).toNat % nbPlayers ≤ (v + 1).toNat := Nat.mod_le _ _
  have hsmall : (v + 1).toNat % nbPlayers < 2147483648 := by omega
  rw [hconv]
  unfold toInt
  have hmod : (v + 1).toNat % nbPlayers % 4294967296 = (v + 1).toNat % nbPlayers :=
    Nat.mod_eq_of_lt (by omega)
  rw [hmod, if_pos hsmall]

theorem registerSender_seen (nbPlayers : Nat) (r : Registry) (sender : String) (index : Int)
    (h : mapFind r.playersIndexes sender = some index) :
    registerSender nbPlayers r sender = some (r, index) := by
  simp [registerSender, h, mapIndex]

theorem registerSender_unseen (nbPlayers : Nat) (r : Registry) (sender : String)
    (h : mapFind r.playersIndexes sender = none) (hn : 0 < nbPlayers)
    (hmax : r.nextPlayerIndex + 1 ≤ INT_MAX) :
    registerSender nbPlayers r sender =
      some (⟨toInt (intToSizeT (r.nextPlayerIndex + 1) % nbPlayers),
              mapAssign r.playersIndexes sender r.nextPlayerIndex⟩, r.nextPlayerIndex) := by
  have hn0 : nbPlayers ≠ 0 := Nat.pos_iff_ne_zero.mp hn
  have hle : ¬ INT_MAX < r.nextPlayerIndex + 1 := not_lt.mpr hmax
  simp [registerSender, h, hn0, hle, mapIndex, mapFind_mapAssign]

/-- Effect of any successful registration on the map: the sender is bound to the
returned index and every other key keeps its binding. -/
theorem registerSender_effect (nbPlayers : Nat) (r r1 : Registry) (sender : String)
    (index : Int) (h : registerSender nbPlayers r sender = some (r1, index)) :
    mapFind r1.playersIndexes sender = some index ∧
      (∀ other, other ≠ sender →
        mapFind r1.playersIndexes other = mapFind r.playersIndexes other) ∧
      (∀ v, mapFind r.playersIndexes sender = some v → index = v ∧ r1 = r) := by
  cases hf : mapFind r.playersIndexes sender with
  | some v =>
    rw [registerSender_seen nbPlayers r sender v hf] at h
    simp only [Option.some.injEq, Prod.mk.injEq] at h
    obtain ⟨h1, h2⟩ := h
    subst h1 h2
    refine ⟨hf, fun _ _ => rfl, ?_⟩
    intro w hw
    simp_all
  | none =>
    by_cases hmax : INT_MAX < r.nextPlayerIndex + 1
    · simp [registerSender, hf, hmax] at h
    · by_cases hn : nbPlayers = 0
      · simp [registerSender, hf, hmax, hn] at h
      · rw [registerSender_unseen nbPlayers r sender hf (Nat.pos_of_ne_zero hn)
          (not_lt.mp hmax)] at h
        simp only [Option.some.injEq, Prod.mk.injEq] at h
        obtain ⟨h1, h2⟩ := h
        subst h1 h2
        refine ⟨by simp [mapFind_mapAssign], ?_, by simp⟩
        intro other hne
        simp [mapFind_mapAssign, Ne.symm hne]

theorem registerAll_cons_some (nbPlayers : Nat) (r0 r : Registry) (sender : String)
    (rest : List String) (indexes : List Int)
    (h : registerAll nbPlayers r0 (sender :: rest) = some (r, indexes)) :
    ∃ r1 index tail, registerSender nbPlayers r0 sender = some (r1, index) ∧
      registerAll nbPlayers r1 rest = some (r, tail) ∧ indexes = index :: tail := by
  unfold registerAll at h
  cases h1 : registerSender nbPlayers r0 sender with
  | none => simp [h1] at h
  | some p =>
    obtain ⟨r1, index⟩ := p
    cases h2 : registerAll nbPlayers r1 rest with
    | none => simp [h1, h2] at h
    | some q =>
      obtain ⟨r2, tail⟩ := q
      simp only [h1, h2, Option.some.injEq, Prod.mk.injEq] at h
      exact ⟨r1, index, tail, rfl, by rw [← h.1, h2], h.2.symm⟩

/-- Bindings of the map after a run of registrations: every identity registered
so far is bound to the index returned at its first registration, and no other
identity is bound. -/
theorem registerAll_bindings (nbPlayers : Nat) :
    ∀ (senders : List String) (r0 r : Registry) (pre : List String) (preIdx indexes : List Int),
      preIdx.length = pre.length →
      (∀ s ∈ pre, mapFind r0.playersIndexes s = preIdx[pre.indexOf s]?) →
      (∀ s, mapFind r0.playersIndexes s ≠ none → s ∈ pre) →
      registerAll nbPlayers r0 senders = some (r, indexes) →
      indexes.length = senders.length ∧
        (∀ s ∈ pre ++ senders,
          mapFind r.playersIndexes s = (preIdx ++ indexes)[(pre ++ senders).indexOf s]?) ∧
        (∀ s, mapFind r.playersIndexes s ≠ none → s ∈ pre ++ senders) := by
  intro senders
  induction senders with
  | nil =>
    intro r0 r pre preIdx indexes hlen hW hK h
    simp only [registerAll, Option.some.injEq, Prod.mk.injEq] at h
    obtain ⟨h1, h2⟩ := h
    subst h1 h2
    simpa using ⟨hW, hK⟩
  | cons sender rest ih =>
    intro r0 r pre preIdx indexes hlen hW hK h
    obtain ⟨r1, index, tail, hstep, hrest, hidx⟩ :=
      registerAll_cons_some nbPlayers r0 r sender rest indexes h
    obtain ⟨hbound, hothers, hseen⟩ := registerSender_effect nbPlayers r0 r1 sender index hstep
    have hlen1 : (preIdx ++ [index]).length = (pre ++ [sender]).length := by simp [hlen]
    have hW1 : ∀ s ∈ pre ++ [sender],
        mapFind r1.playersIndexes s = (preIdx ++ [index])[(pre ++ [sender]).indexOf s]? := by
      intro s hs
      by_cases hpre : s ∈ pre
      · have hlt : pre.indexOf s < preIdx.length := by
          rw [hlen]; exact List.indexOf_lt_length.mpr hpre
        rw [List.indexOf_append_of_mem hpre, List.getElem?_append_left hlt]
        by_cases hsame : s = sender
        · subst hsame
          have hold := hW s hpre
          rw [List.getElem?_eq_getElem hlt] at hold
          obtain ⟨_, hr⟩ := hseen _ hold
          rw [hr]
          exact hW s hpre
        · rw [hothers s hsame]
          exact hW s hpre
      · have hsame : s = sender := by
          rcases List.mem_append.mp hs with h1 | h1
          · exact absurd h1 hpre
          · simpa using h1
        subst hsame
        rw [List.indexOf_append_of_not_mem hpre, List.indexOf_cons_self, Nat.add_zero, ← hlen,
          List.getElem?_append_right (Nat.le_refl _)]
        simpa using hbound
    have hK1 : ∀ s, mapFind r1.playersIndexes s ≠ none → s ∈ pre ++ [sender] := by
      intro s hs
      by_cases hsame : s = sender
      · simp [hsame]
      · rw [hothers s hsame] at hs
        exact List.mem_append_left _ (hK s hs)
    obtain ⟨hl, hW2, hK2⟩ := ih r1 r (pre ++ [sender]) (preIdx ++ [index]) tail hlen1 hW1 hK1 hrest
    subst hidx
    refine ⟨by simp [hl], ?_, ?_⟩
    · intro s hs
      have := hW2 s (by simpa using hs)
      simpa using this
    · intro s hs
      simpa using hK2 s hs

/-- C2. Re-registration is stable: in every registry reached from the empty one
by a sequence of registrations, registering an identity that is already present
in `playersIndexes` returns the index returned at the first registration of that
identity and gives back the same registry, map and counter unchanged. -/
theorem reregistration_stable (nbPlayers : Nat) (senders : List String) (r : Registry)
    (indexes : List Int) (sender : String)
    (hreach : registerAll nbPlayers emptyRegistry senders = some (r, indexes))
    (hpresent : mapFind r.playersIndexes sender ≠ none) :
    ∃ first, indexes[senders.indexOf sender]? = some first ∧
      registerSender nbPlayers r sender = some (r, first) ∧
      ∀ r1 index, registerSender nbPlayers r sender = some (r1, index) →
        r1.playersIndexes = r.playersIndexes ∧ r1.nextPlayerIndex = r.nextPlayerIndex := by
  obtain ⟨hl, hW, hK⟩ := registerAll_bindings nbPlayers senders emptyRegistry r [] [] indexes rfl
    (by simp) (by simp [emptyRegistry, mapFind]) hreach
  have hmem : sender ∈ senders := by simpa using hK sender hpresent
  have hbind := hW sender (by simpa using hmem)
  simp only [List.nil_append] at hbind
  have hlt : senders.indexOf sender < indexes.length := by
    rw [hl]; exact List.indexOf_lt_length.mpr hmem
  rw [List.getElem?_eq_getElem hlt] at hbind
  refine ⟨indexes[senders.indexOf sender], List.getElem?_eq_getElem hlt,
    registerSender_seen nbPlayers r sender _ hbind, ?_⟩
  intro r1 index h1
  rw [registerSender_seen nbPlayers r sender _ hbind] at h1
  simp only [Option.some.injEq, Prod.mk.injEq] at h1
  rw [← h1.1]
  exact ⟨rfl, rfl⟩

theorem reregistration_stable_witness :
    ∃ first, ([0, 1, 0] : List Int)[["A", "B", "A"].indexOf "A"]? = some first ∧
      registerSender 2 ⟨0, [("A", 0), ("B", 1)]⟩ "A" = some (⟨0, [("A", 0), ("B", 1)]⟩, first) ∧
      ∀ r1 index, registerSender 2 ⟨0, [("A", 0), ("B", 1)]⟩ "A" = some (r1, index) →
        r1.playersIndexes = [("A", 0), ("B", 1)] ∧ r1.nextPlayerIndex = 0 :=
  reregistration_stable 2 ["A", "B", "A"] ⟨0, [("A", 0), ("B", 1)]⟩ [0, 1, 0] "A"
    (by decide) (by decide)

theorem firstSeenRank_append_of_mem (l l2 : List String) (s : String) (h : s ∈ l) :
    firstSeenRank (l ++ l2) s = firstSeenRank l s := by
  unfold firstSeenRank
  rw [List.indexOf_append_of_mem h, List.take_append_of_le_length List.indexOf_le_length]

theorem firstSeenRank_append_self (l : List String) (s : String) (h : s ∉ l) :
    firstSeenRank (l ++ [s]) s = l.toFinset.card := by
  unfold firstSeenRank
  rw [List.indexOf_append_of_not_mem h, List.indexOf_cons_self, Nat.add_zero, List.take_left]

theorem card_append_of_mem (l : List String) (s : String) (h : s ∈ l) :
    (l ++ [s]).toFinset.card = l.toFinset.card := by
  have : (l ++ [s]).toFinset = l.toFinset := by
    ext x
    simp only [List.mem_toFinset, List.mem_append, List.mem_singleton]
    constructor
    · rintro (hx | hx)
      · exact hx
      · rw [hx]; exact h
    · exact fun hx => Or.inl hx
  rw [this]

theorem card_append_of_not_mem (l : List String) (s : String) (h : s ∉ l) :
    (l ++ [s]).toFinset.card = l.toFinset.card + 1 := by
  have : (l ++ [s]).toFinset = insert s l.toFinset := by
    ext x
    simp only [List.mem_toFinset, List.mem_append, List.mem_singleton, Finset.mem_insert]
    exact Or.comm
  rw [this, Finset.card_insert_of_not_mem (by simpa using h)]

theorem registryInv_empty (nbPlayers : Nat) : RegistryInv nbPlayers emptyRegistry [] := by
  constructor
  · intro s
    simp [emptyRegistry, mapFind]
  · simp [emptyRegistry]

theorem registerSender_inv (nbPlayers : Nat) (r : Registry) (pre : List String) (s : String)
    (hpos : 0 < nbPlayers) (hfit : (nbPlayers : Int) ≤ INT_MAX)
    (hinv : RegistryInv nbPlayers r pre) :
    ∃ r1, registerSender nbPlayers r s =
        some (r1, ((firstSeenRank (pre ++ [s]) s % nbPlayers : Nat) : Int)) ∧
      RegistryInv nbPlayers r1 (pre ++ [s]) := by
  obtain ⟨hmap, hnext⟩ := hinv
  by_cases hs : s ∈ pre
  · have hfind := hmap s
    rw [if_pos hs] at hfind
    refine ⟨r, ?_, ?_, ?_⟩
    · rw [firstSeenRank_append_of_mem pre [s] s hs]
      exact registerSender_seen nbPlayers r s _ hfind
    · intro t
      rw [hmap t]
      by_cases ht : t ∈ pre
      · have ht2 : t ∈ pre ++ [s] := List.mem_append_left _ ht
        rw [if_pos ht, if_pos ht2, firstSeenRank_append_of_mem pre [s] t ht]
      · have ht2 : t ∉ pre ++ [s] := by
          intro hmem
          rcases List.mem_append.mp hmem with h1 | h1
          · exact ht h1
          · exact ht (by rw [List.mem_singleton.mp h1]; exact hs)
        rw [if_neg ht, if_neg ht2]
    · rw [hnext, card_append_of_mem pre s hs]
  · have hfind := hmap s
    rw [if_neg hs] at hfind
    have hlt : pre.toFinset.card % nbPlayers < nbPlayers := Nat.mod_lt _ hpos
    have hmax : (nbPlayers : Int) ≤ 2147483647 := hfit
    have h0 : (0 : Int) ≤ r.nextPlayerIndex := by rw [hnext]; exact Int.natCast_nonneg _
    have h1 : r.nextPlayerIndex + 1 ≤ INT_MAX := by
      rw [hnext]
      show ((pre.toFinset.card % nbPlayers : Nat) : Int) + 1 ≤ 2147483647
      omega
    refine ⟨⟨toInt (intToSizeT (r.nextPlayerIndex + 1) % nbPlayers),
      mapAssign r.playersIndexes s r.nextPlayerIndex⟩, ?_, ?_, ?_⟩
    · rw [registerSender_unseen nbPlayers r s hfind hpos h1, firstSeenRank_append_self pre s hs,
        hnext]
    · intro t
      show mapFind (mapAssign r.playersIndexes s r.nextPlayerIndex) t = _
      rw [mapFind_mapAssign]
      by_cases hts : s = t
      · subst hts
        rw [if_pos rfl, if_pos (List.mem_append_right _ (List.mem_singleton_self _)),
          firstSeenRank_append_self pre s hs, hnext]
      · rw [if_neg hts, hmap t]
        by_cases ht : t ∈ pre
        · rw [if_pos ht, if_pos (List.mem_append_left _ ht),
            firstSeenRank_append_of_mem pre [s] t ht]
        · have ht2 : t ∉ pre ++ [s] := by
            intro hmem
            rcases List.mem_append.mp hmem with h2 | h2
            · exact ht h2
            · exact hts (List.mem_singleton.mp h2).symm
          rw [if_neg ht, if_neg ht2]
    · show toInt (intToSizeT (r.nextPlayerIndex + 1) % nbPlayers) = _
      rw [counter_wrap nbPlayers r.nextPlayerIndex h0 h1, card_append_of_not_mem pre s hs, hnext]
      have hnat : (((pre.toFinset.card % nbPlayers : Nat) : Int) + 1).toNat
          = pre.toFinset.card % nbPlayers + 1 := by omega
      rw [hnat, Nat.add_mod (pre.toFinset.card) 1 nbPlayers, Nat.add_mod (_ % _) 1 nbPlayers,
        Nat.mod_mod]

theorem registerAll_inv (nbPlayers : Nat) (hpos : 0 < nbPlayers)
    (hfit : (nbPlayers : Int) ≤ INT_MAX) :
    ∀ (senders : List String) (r : Registry) (pre : List String),
      RegistryInv nbPlayers r pre →
      ∃ r2, registerAll nbPlayers r senders =
          some (r2, senders.map
            (fun s => ((firstSeenRank (pre ++ senders) s % nbPlayers : Nat) : Int))) ∧
        RegistryInv nbPlayers r2 (pre ++ senders) := by
  intro senders
  induction senders with
  | nil =>
    intro r pre hinv
    exact ⟨r, by simp [registerAll], by simpa using hinv⟩
  | cons s rest ih =>
    intro r pre hinv
    obtain ⟨r1, hstep, hinv1⟩ := registerSender_inv nbPlayers r pre s hpos hfit hinv
    obtain ⟨r2, hrest, hinv2⟩ := ih r1 (pre ++ [s]) hinv1
    have happ : pre ++ [s] ++ rest = pre ++ s :: rest := by simp
    rw [happ] at hrest hinv2
    refine ⟨r2, ?_, hinv2⟩
    have hrank : firstSeenRank (pre ++ s :: rest) s = firstSeenRank (pre ++ [s]) s := by
      rw [← happ]
      exact firstSeenRank_append_of_mem (pre ++ [s]) rest s
        (List.mem_append_right _ (List.mem_singleton_self _))
    simp only [registerAll, hstep, hrest, List.map_cons, hrank]

theorem firstSeenRank_of_nodup (senders : List String) (h : senders.Nodup) (j : Nat)
    (hj : j < senders.length) : firstSeenRank senders senders[j] = j := by
  unfold firstSeenRank
  rw [List.indexOf_getElem h j hj,
    List.toFinset_card_of_nodup (h.sublist (List.take_sublist j senders)), List.length_take]
  omega

/-- C3, as stated for every capacity, fails at capacity 0: the range `[0, 0)` is
empty and the registration of a first identity A evaluates `1 % 0`, so no index
is returned and A is not assigned `0 mod 0`. -/
theorem index_bounded_and_wraps_counterexample :
    registerSender 0 emptyRegistry "A" = none ∧
      registerAll 0 emptyRegistry ["A"] = none ∧
      ¬ ∃ r indexes, registerAll 0 emptyRegistry ["A"] = some (r, indexes) ∧
        (∀ index ∈ indexes, 0 ≤ index ∧ index < ((0 : Nat) : Int)) ∧
        indexes[0]? = some (((firstSeenRank ["A"] "A" % 0 : Nat) : Int)) := by
  have hnone : registerAll 0 emptyRegistry ["A"] = none := by decide
  refine ⟨by decide, hnone, ?_⟩
  rintro ⟨r, indexes, hrun, _⟩
  rw [hnone] at hrun
  exact absurd hrun (by simp)

/-- C3, amended. Bounded, wrapping index assignment: with a capacity `nbPlayers`
that is at least 1 and fits the `int` counter, every sequence of registrations
from the empty registry succeeds, every index returned lies in `[0, nbPlayers)`,
the identity that is the `k`-th distinct one seen (from 0) gets index
`k mod nbPlayers`, and so the `(nbPlayers+1)`-th distinct identity shares slot 0
with the first. -/
theorem index_bounded_and_wraps (nbPlayers : Nat) (senders : List String)
    (hpos : 0 < nbPlayers) (hfit : (nbPlayers : Int) ≤ INT_MAX) :
    ∃ r indexes, registerAll nbPlayers emptyRegistry senders = some (r, indexes) ∧
      indexes.length = senders.length ∧
      (∀ index ∈ indexes, 0 ≤ index ∧ index < (nbPlayers : Int)) ∧
      (∀ (j : Nat) (hj : j < senders.length),
        indexes[j]? = some (((firstSeenRank senders senders[j] % nbPlayers : Nat) : Int))) ∧
      (∀ (i j : Nat) (hi : i < senders.length) (hj : j < senders.length),
        firstSeenRank senders senders[i] = 0 →
        firstSeenRank senders senders[j] = nbPlayers →
        indexes[i]? = some 0 ∧ indexes[j]? = some 0) := by
  obtain ⟨r, hrun, _⟩ :=
    registerAll_inv nbPlayers hpos hfit senders emptyRegistry [] (registryInv_empty nbPlayers)
  simp only [List.nil_append] at hrun
  have hget : ∀ (j : Nat) (hj : j < senders.length),
      (senders.map (fun s => ((firstSeenRank senders s % nbPlayers : Nat) : Int)))[j]? =
        some (((firstSeenRank senders senders[j] % nbPlayers : Nat) : Int)) := by
    intro j hj
    simp [List.getElem?_map, List.getElem?_eq_getElem hj]
  refine ⟨r, _, hrun, by simp, ?_, hget, ?_⟩
  · intro index hmem
    obtain ⟨s, _, hs⟩ := List.mem_map.mp hmem
    have hlt : firstSeenRank senders s % nbPlayers < nbPlayers := Nat.mod_lt _ hpos
    rw [← hs]
    constructor
    · exact Int.natCast_nonneg _
    · exact Int.ofNat_lt.mpr hlt
  · intro i j hi hj h0 hn
    rw [hget i hi, hget j hj, h0, hn]
    simp

theorem index_bounded_and_wraps_witness :
    (0 < 2 ∧ ((2 : Nat) : Int) ≤ INT_MAX) ∧
    ∃ r indexes, registerAll 2 emptyRegistry ["A", "B", "C"] = some (r, indexes) ∧
      indexes.length = ["A", "B", "C"].length ∧
      (∀ index ∈ indexes, 0 ≤ index ∧ index < ((2 : Nat) : Int)) ∧
      (∀ (j : Nat) (hj : j < ["A", "B", "C"].length),
        indexes[j]? =
          some (((firstSeenRank ["A", "B", "C"] ["A", "B", "C"][j] % 2 : Nat) : Int))) ∧
      (∀ (i j : Nat) (hi : i < ["A", "B", "C"].length) (hj : j < ["A", "B", "C"].length),
        firstSeenRank ["A", "B", "C"] ["A", "B", "C"][i] = 0 →
        firstSeenRank ["A", "B", "C"] ["A", "B", "C"][j] = 2 →
        indexes[i]? = some 0 ∧ indexes[j]? = some 0) :=
  ⟨⟨by decide, by decide⟩, index_bounded_and_wraps 2 ["A", "B", "C"] (by decide) (by decide)⟩

/-- C1, as stated, fails: with capacity 2 the three distinct identities A, B, C
registered in that order get the indices 0, 1, 0 and not 0, 1, 2. -/
theorem registry_determinism_counterexample :
    ["A", "B", "C"].Nodup ∧
      (registerAll 2 emptyRegistry ["A", "B", "C"]).map Prod.snd = some [0, 1, 0] ∧
      (registerAll 2 emptyRegistry ["A", "B", "C"]).map Prod.snd ≠ some [0, 1, 2] := by
  decide

/-- C1, amended. Registry determinism up to the capacity: from the empty
registry with capacity `nbPlayers` (fitting the `int` counter), a sequence of
`N ≤ nbPlayers` distinct identities registered in order gets the indices
`0, 1, …, N-1` respectively. -/
theorem registry_determinism_within_capacity (nbPlayers : Nat) (senders : List String)
    (hdistinct : senders.Nodup) (hcap : senders.length ≤ nbPlayers)
    (hfit : (nbPlayers : Int) ≤ INT_MAX) :
    ∃ r, registerAll nbPlayers emptyRegistry senders =
      some (r, (List.range senders.length).map (fun (k : Nat) => (k : Int))) := by
  rcases Nat.eq_zero_or_pos nbPlayers with hzero | hpos
  · have hnil : senders = [] := List.length_eq_zero.mp (by omega)
    subst hnil
    exact ⟨emptyRegistry, by simp [registerAll]⟩
  · obtain ⟨r, hrun, _⟩ :=
      registerAll_inv nbPlayers hpos hfit senders emptyRegistry [] (registryInv_empty nbPlayers)
    simp only [List.nil_append] at hrun
    refine ⟨r, ?_⟩
    rw [hrun]
    congr 2
    apply List.ext_getElem
    · simp
    · intro j h1 h2
      have hj : j < senders.length := by simpa using h1
      simp only [List.getElem_map, List.getElem_range]
      rw [firstSeenRank_of_nodup senders hdistinct j hj, Nat.mod_eq_of_lt (by omega)]

theorem registry_determinism_within_capacity_witness :
    (["A", "B", "C"].Nodup ∧ ["A", "B", "C"].length ≤ 3 ∧ ((3 : Nat) : Int) ≤ INT_MAX) ∧
    ∃ r, registerAll 3 emptyRegistry ["A", "B", "C"] =
      some (r, (List.range ["A", "B", "C"].length).map (fun (k : Nat) => (k : Int))) :=
  ⟨⟨by decide, by decide, by decide⟩,
    registry_determinism_within_capacity 3 ["A", "B", "C"] (by decide) (by decide) (by decide)⟩

/-! ## Frame buffer: lemmas -/

theorem toUnsigned_toInt (color : Nat) (h : color < 4294967296) :
    toUnsigned (toInt color) = color := by
  unfold toUnsigned toInt
  rw [Nat.mod_eq_of_lt h]
  split <;> omega

theorem init_wellFormed (width height : Int) (db : DoubleBuffer)
    (h : DoubleBuffer.init width height = some db) : db.WellFormed := by
  unfold DoubleBuffer.init at h
  split at h
  · exact absurd h (by simp)
  · rename_i hr
    split at h
    · exact absurd h (by simp)
    · rename_i hneg
      simp only [Option.some.injEq] at h
      subst h
      simp only [inIntRange, Bool.not_eq_true, Bool.not_eq_eq_eq_not, Bool.not_true,
        decide_eq_false_iff_not, not_not] at hr
      exact ⟨not_lt.mp hneg, hr.2, by simp, by simp⟩

theorem swap_wellFormed (db : DoubleBuffer) (h : db.WellFormed) : db.swap.WellFormed := by
  obtain ⟨h0, h1, h2, h3⟩ := h
  exact ⟨h0, h1, h3, h2⟩

/-- Inside a well-formed buffer the cell index of pixel `(x, y)` is a valid index
of `frontBuffer` and no `int` computation overflows. -/
theorem cell_index_bounds (db : DoubleBuffer) (x y : Int) (hwf : db.WellFormed)
    (hx : 0 ≤ x ∧ x < db.width) (hy : 0 ≤ y ∧ y < db.height) :
    0 ≤ y * db.width ∧ y * db.width ≤ INT_MAX ∧ 0 ≤ x + y * db.width ∧
      x + y * db.width ≤ INT_MAX ∧ (x + y * db.width).toNat < db.frontBuffer.length := by
  obtain ⟨h0, h1, h2, _⟩ := hwf
  have hw : 0 ≤ db.width := by omega
  have hyw : 0 ≤ y * db.width := Int.mul_nonneg hy.1 hw
  have hle : y * db.width ≤ (db.height - 1) * db.width :=
    Int.mul_le_mul_of_nonneg_right (by omega) hw
  have hexp : (db.height - 1) * db.width = db.width * db.height - db.width := by ring
  have hlt : x + y * db.width < db.width * db.height := by omega
  refine ⟨hyw, by omega, by omega, by omega, ?_⟩
  rw [h2]
  omega

theorem storeFront_some (db : DoubleBuffer) (x y : Int) (color : Nat) (hwf : db.WellFormed)
    (hx : 0 ≤ x ∧ x < db.width) (hy : 0 ≤ y ∧ y < db.height) :
    db.storeFront x y color =
      some { db with frontBuffer := db.frontBuffer.set (x + y * db.width).toNat (toInt color) } := by
  obtain ⟨h0, h1, h2, h3, h4⟩ := cell_index_bounds db x y hwf hx hy
  have hmin : INT_MIN ≤ 0 := by decide
  have r1 : inIntRange (y * db.width) = true := by
    simp only [inIntRange, decide_eq_true_eq]
    exact ⟨le_trans hmin h0, h1⟩
  have r2 : inIntRange (x + y * db.width) = true := by
    simp only [inIntRange, decide_eq_true_eq]
    exact ⟨le_trans hmin h2, h3⟩
  unfold DoubleBuffer.storeFront
  rw [r1, r2]
  simp only [Bool.not_true, Bool.false_eq_true, if_false]
  rw [if_neg (not_lt.mpr h2), if_neg (not_le.mpr h4)]

theorem storeFront_wellFormed (db db1 : DoubleBuffer) (x y : Int) (color : Nat)
    (hwf : db.WellFormed) (h : db.storeFront x y color = some db1) : db1.WellFormed := by
  unfold DoubleBuffer.storeFront at h
  split at h
  · exact absurd h (by simp)
  · split at h
    · exact absurd h (by simp)
    · split at h
      · exact absurd h (by simp)
      · split at h
        · exact absurd h (by simp)
        · simp only [Option.some.injEq] at h
          subst h
          obtain ⟨h0, h1, h2, h3⟩ := hwf
          exact ⟨h0, h1, by simpa using h2, h3⟩

/-- C4. Buffer round-trip: for every `DoubleBuffer` state, after `swap()` the
back (readable) buffer is exactly the front buffer from before the call, the new
front buffer is the previous back buffer cell for cell, and width, height and
the lengths of both buffers are unchanged. -/
theorem swap_round_trip (db : DoubleBuffer) (hwf : db.WellFormed) :
    db.swap.getBackBuffer = db.frontBuffer ∧
      db.swap.frontBuffer = db.getBackBuffer ∧
      db.swap.getWidth = db.getWidth ∧ db.swap.getHeight = db.getHeight ∧
      db.swap.frontBuffer.length = db.frontBuffer.length ∧
      db.swap.backBuffer.length = db.backBuffer.length := by
  obtain ⟨_, _, h2, h3⟩ := hwf
  refine ⟨rfl, rfl, rfl, rfl, ?_, ?_⟩
  · show db.backBuffer.length = db.frontBuffer.length
    rw [h2, h3]
  · show db.frontBuffer.length = db.backBuffer.length
    rw [h2, h3]

theorem swap_round_trip_witness :
    (DoubleBuffer.mk 2 1 [7, 8] [0, 0]).WellFormed ∧
      (DoubleBuffer.mk 2 1 [7, 8] [0, 0]).swap = DoubleBuffer.mk 2 1 [0, 0] [7, 8] ∧
      (DoubleBuffer.mk 2 1 [7, 8] [0, 0]).swap.getBackBuffer = [7, 8] :=
  ⟨by decide, by decide, (swap_round_trip (DoubleBuffer.mk 2 1 [7, 8] [0, 0]) (by decide)).1⟩

/-- C5. `drawPixel` writes the front buffer only: in a `DoubleBuffer` of size
`width × height`, for `0 ≤ x < width` and `0 ≤ y < height`, `drawPixel(x, y, color)`
succeeds, the front cell `x + y*width` then holds `color` (the `int` with the
32-bit pattern of `color`, which reads back as `color`), every other front cell
is unchanged and the back buffer, as `getBackBuffer` exposes it, is unchanged. -/
theorem drawPixel_writes_front_only (db : DoubleBuffer) (x y : Int) (color : Nat)
    (hwf : db.WellFormed) (hx : 0 ≤ x ∧ x < db.width) (hy : 0 ≤ y ∧ y < db.height)
    (hcolor : color < 4294967296) :
    ∃ db1, db.drawPixel x y color = some db1 ∧
      db1.frontBuffer[(x + y * db.width).toNat]? = some (toInt color) ∧
      toUnsigned (toInt color) = color ∧
      (∀ i : Nat, i ≠ (x + y * db.width).toNat → db1.frontBuffer[i]? = db.frontBuffer[i]?) ∧
      db1.frontBuffer.length = db.frontBuffer.length ∧
      db1.getBackBuffer = db.getBackBuffer ∧
      db1.getWidth = db.getWidth ∧ db1.getHeight = db.getHeight := by
  obtain ⟨_, _, _, _, hidx⟩ := cell_index_bounds db x y hwf hx hy
  refine ⟨_, storeFront_some db x y color hwf hx hy, ?_, toUnsigned_toInt color hcolor, ?_,
    ?_, rfl, rfl, rfl⟩
  · simp [List.getElem?_set_self hidx]
  · intro i hi
    simp [List.getElem?_set_ne (Ne.symm hi)]
  · simp

theorem drawPixel_writes_front_only_witness :
    ((DoubleBuffer.mk 2 2 [1, 2, 3, 4] [5, 6, 7, 8]).WellFormed ∧
      ((0 : Int) ≤ 1 ∧ (1 : Int) < 2) ∧ (4294967295 : Nat) < 4294967296) ∧
    ∃ db1, (DoubleBuffer.mk 2 2 [1, 2, 3, 4] [5, 6, 7, 8]).drawPixel 1 1 4294967295 = some db1 ∧
      db1.frontBuffer[((1 : Int) + 1 * 2).toNat]? = some (toInt 4294967295) ∧
      toUnsigned (toInt 4294967295) = 4294967295 ∧
      (∀ i : Nat, i ≠ ((1 : Int) + 1 * 2).toNat → db1.frontBuffer[i]? =
        ([1, 2, 3, 4] : List Int)[i]?) ∧
      db1.frontBuffer.length = ([1, 2, 3, 4] : List Int).length ∧
      db1.getBackBuffer = [5, 6, 7, 8] ∧
      db1.getWidth = 2 ∧ db1.getHeight = 2 :=
  ⟨⟨by decide, by decide, by decide⟩,
    drawPixel_writes_front_only (DoubleBuffer.mk 2 2 [1, 2, 3, 4] [5, 6, 7, 8]) 1 1 4294967295
      (by decide) (by decide) (by decide) (by decide)⟩

theorem mask_testBit (i : Nat) : Nat.testBit 8355711 i = decide (i % 8 < 7 ∧ i < 24) := by
  by_cases hi : i < 24
  · interval_cases i <;> decide
  · have hlt : 8355711 < 2 ^ i :=
      lt_of_lt_of_le (by norm_num) (Nat.pow_le_pow_right (by norm_num) (not_lt.mp hi))
    rw [Nat.testBit_lt_two_pow hlt]
    simp [hi]

theorem darkened_channel (c s : Nat) (hs : s = 0 ∨ s = 8 ∨ s = 16) :
    (((c >>> 1) &&& 8355711) >>> s) % 2 ^ 8 = ((c >>> s) % 2 ^ 8) >>> 1 := by
  apply Nat.eq_of_testBit_eq
  intro i
  simp only [Nat.testBit_mod_two_pow, Nat.testBit_and, Nat.testBit_shiftRight, mask_testBit]
  by_cases h8 : i < 8
  · have hm : (s + i) % 8 = i := by omega
    have h24 : s + i < 24 := by omega
    have hadd : 1 + (s + i) = s + (1 + i) := by omega
    rw [hm, hadd]
    by_cases h7 : i < 7
    · have : 1 + i < 8 := by omega
      simp [h8, h7, this, h24]
    · have : ¬ 1 + i < 8 := by omega
      simp [h8, h7, this]
  · have : ¬ 1 + i < 8 := by omega
    simp [h8, this]

theorem darkened_top (c : Nat) : ((c >>> 1) &&& 8355711) >>> 24 = 0 := by
  apply Nat.eq_of_testBit_eq
  intro i
  simp only [Nat.testBit_and, Nat.testBit_shiftRight, mask_testBit, Nat.zero_testBit]
  have : ¬ 24 + i < 24 := by omega
  simp [this]

theorem darkened_channels (c : Nat) :
    ((c >>> 1) &&& 8355711) % 256 = (c % 256) / 2 ∧
    (((c >>> 1) &&& 8355711) / 256) % 256 = ((c / 256) % 256) / 2 ∧
    (((c >>> 1) &&& 8355711) / 65536) % 256 = ((c / 65536) % 256) / 2 ∧
    ((c >>> 1) &&& 8355711) / 16777216 = 0 := by
  have h0 := darkened_channel c 0 (Or.inl rfl)
  have h8 := darkened_channel c 8 (Or.inr (Or.inl rfl))
  have h16 := darkened_channel c 16 (Or.inr (Or.inr rfl))
  have ht := darkened_top c
  simp only [Nat.shiftRight_eq_div_pow] at h0 h8 h16 ht
  norm_num at h0 h8 h16 ht
  exact ⟨h0, h8, h16, ht⟩

/-- The loop of `drawVertLine` on rows `y, …, y + n - 1` of a column inside the
buffer: it succeeds, row `y + j` of the column then holds the shaded texel of
iteration `k + j`, and nothing else changes. -/
theorem drawVertLineLoop_spec (x : Int) (texel : Nat → Nat) (darken : Bool) :
    ∀ (n k : Nat) (y : Int) (db : DoubleBuffer), db.WellFormed →
      (0 ≤ x ∧ x < db.width) → 0 ≤ y → y + n ≤ db.height →
      ∃ db1, DoubleBuffer.drawVertLineLoop x texel darken n k y db = some db1 ∧
        db1.WellFormed ∧ db1.width = db.width ∧ db1.height = db.height ∧
        db1.backBuffer = db.backBuffer ∧
        (∀ j : Nat, j < n → db1.frontBuffer[(x + (y + j) * db.width).toNat]? =
          some (toInt (shade darken (texel (k + j) % 4294967296)))) ∧
        (∀ i : Nat, (∀ j : Nat, j < n → i ≠ (x + (y + j) * db.width).toNat) →
          db1.frontBuffer[i]? = db.frontBuffer[i]?) := by
  intro n
  induction n with
  | zero =>
    intro k y db hwf _ _ _
    exact ⟨db, rfl, hwf, rfl, rfl, rfl, fun j hj => absurd hj (Nat.not_lt_zero j),
      fun _ _ => rfl⟩
  | succ n ih =>
    intro k y db hwf hx hy hn
    have hyh : 0 ≤ y ∧ y < db.height := ⟨hy, by push_cast at hn; omega⟩
    have hstore := storeFront_some db x y (shade darken (texel k % 4294967296)) hwf hx hyh
    have hwf1 := storeFront_wellFormed db _ x y _ hwf hstore
    obtain ⟨c0, c1, c2, c3, cidx⟩ := cell_index_bounds db x y hwf hx hyh
    obtain ⟨w0, w1, _, _⟩ := hwf
    have hwpos : 0 < db.width := by omega
    have hhle : db.height ≤ db.width * db.height := by
      have := Int.mul_le_mul_of_nonneg_right (show (1 : Int) ≤ db.width by omega)
        (show (0 : Int) ≤ db.height by omega)
      simpa using this
    have hmax : db.width * db.height ≤ 2147483647 := w1
    have hr : inIntRange (y + 1) = true := by
      simp only [inIntRange, decide_eq_true_eq]
      constructor
      · show (-2147483648 : Int) ≤ y + 1
        omega
      · show y + 1 ≤ (2147483647 : Int)
        omega
    obtain ⟨db2, hloop, hwf2, hw2, hh2, hb2, hcells, hrest⟩ :=
      ih (k + 1) (y + 1)
        { db with frontBuffer := List.set db.frontBuffer (x + y * db.width).toNat (toInt
            (shade darken (texel k % 4294967296))) }
        hwf1 hx (by omega) (by push_cast at hn ⊢; omega)
    have hsep : ∀ j : Nat, (x + y * db.width).toNat ≠ (x + (y + 1 + j) * db.width).toNat := by
      intro j
      have hexp : (y + 1 + (j : Int)) * db.width = y * db.width + (1 + (j : Int)) * db.width := by
        ring
      have hpos : 0 < (1 + (j : Int)) * db.width := Int.mul_pos (by omega) hwpos
      omega
    refine ⟨db2, ?_, hwf2, hw2, hh2, hb2, ?_, ?_⟩
    · simp only [DoubleBuffer.drawVertLineLoop, hstore, hr, Bool.not_true, Bool.false_eq_true,
        if_false]
      exact hloop
    · intro j hj
      cases j with
      | zero =>
        have h1 := hrest (x + y * db.width).toNat (fun j _ => hsep j)
        simp only [Nat.cast_zero, add_zero]
        rw [h1]
        simp [List.getElem?_set_self cidx]
      | succ j =>
        have h1 := hcells j (by omega)
        have e1 : y + ((j + 1 : Nat) : Int) = y + 1 + (j : Int) := by push_cast; ring
        have e2 : k + (j + 1) = k + 1 + j := by omega
        rw [e1, e2]
        exact h1
    · intro i hi
      have h0 := hi 0 (Nat.succ_pos n)
      simp only [Nat.cast_zero, add_zero] at h0
      have h1 := hrest i (by
        intro j hj
        have := hi (j + 1) (by omega)
        have e1 : y + ((j + 1 : Nat) : Int) = y + 1 + (j : Int) := by push_cast; ring
        rw [e1] at this
        exact this)
      rw [h1]
      simp [List.getElem?_set_ne (Ne.symm h0)]

/-- C10. Darkening halves each colour channel: for every 32-bit texel colour `c`,
the value `(c >> 1) & 8355711` that `drawVertLine` stores when `darken` is true
has blue, green and red channels equal to the channels of `c` divided by 2
(rounded down) and its top 8 bits zero, and it is stored as that very `int`;
when `darken` is false the colour is stored unchanged. The last part states
that these are the values found in the column after `drawVertLine`. -/
theorem darken_halves_channels (c : Nat) (hc : c < 4294967296) :
    shade true c = (c >>> 1) &&& 8355711 ∧
      shade true c % 256 = (c % 256) / 2 ∧
      (shade true c / 256) % 256 = ((c / 256) % 256) / 2 ∧
      (shade true c / 65536) % 256 = ((c / 65536) % 256) / 2 ∧
      shade true c / 16777216 = 0 ∧
      toInt (shade true c) = ((shade true c : Nat) : Int) ∧
      shade false c = c ∧
      toUnsigned (toInt (shade false c)) = c ∧
      ∀ (db : DoubleBuffer) (x yStart yEnd : Int) (texel : Nat → Nat) (darken : Bool) (j : Nat),
        db.WellFormed → (0 ≤ x ∧ x < db.width) → 0 ≤ yStart → yEnd < db.height →
        yStart + j ≤ yEnd → texel j = c →
        ∃ db1, db.drawVertLine x yStart yEnd texel darken = some db1 ∧
          db1.frontBuffer[(x + (yStart + j) * db.width).toNat]? =
            some (toInt (shade darken c)) := by
  obtain ⟨hb, hg, hr, ht⟩ := darkened_channels c
  have hshade : shade true c = (c >>> 1) &&& 8355711 := by simp [shade]
  have hsmall : shade true c < 16777216 := by
    rw [hshade]
    exact (Nat.div_eq_zero_iff (by norm_num)).mp ht
  refine ⟨hshade, ?_, ?_, ?_, ?_, ?_, by simp [shade], ?_, ?_⟩
  · rw [hshade]; exact hb
  · rw [hshade]; exact hg
  · rw [hshade]; exact hr
  · rw [hshade]; exact ht
  · unfold toInt
    have hmod : shade true c % 4294967296 = shade true c := Nat.mod_eq_of_lt (by omega)
    rw [hmod, if_pos (by omega)]
  · have hf : shade false c = c := by simp [shade]
    rw [hf]
    exact toUnsigned_toInt c hc
  · intro db x yStart yEnd texel darken j hwf hx hy0 hy1 hj htex
    have hn : yStart + ((yEnd - yStart + 1).toNat : Int) ≤ db.height := by omega
    obtain ⟨db1, hrun, _, _, _, _, hcells, _⟩ :=
      drawVertLineLoop_spec x texel darken (yEnd - yStart + 1).toNat 0 yStart db hwf hx hy0 hn
    refine ⟨db1, hrun, ?_⟩
    have hcell := hcells j (by omega)
    rw [Nat.zero_add, htex, Nat.mod_eq_of_lt hc] at hcell
    exact hcell

theorem darken_halves_channels_witness :
    (4294967295 : Nat) < 4294967296 ∧ shade true 4294967295 = 8355711 ∧
      shade true 4294967295 % 256 = (4294967295 % 256) / 2 :=
  ⟨by decide,
    (darken_halves_channels 4294967295 (by decide)).1.trans (by decide),
    (darken_halves_channels 4294967295 (by decide)).2.1⟩

/-! ## Receive path: lemmas -/

theorem applySamples_append {α : Type} (nbPlayers : Nat) (l : List (UDPData α))
    (d : UDPData α) : ∀ st : ReceiveState α,
      applySamples nbPlayers st (l ++ [d]) =
        (applySamples nbPlayers st l).bind (fun s => applyReceived nbPlayers s d) := by
  induction l with
  | nil =>
    intro st
    cases h : applyReceived nbPlayers st d <;> simp [applySamples, h]
  | cons e rest ih =>
    intro st
    cases h : applyReceived nbPlayers st e with
    | none => simp [applySamples, h]
    | some st1 => simp [applySamples, h, ih st1]

theorem receiverThread_running {α : Type} (nbPlayers : Nat) (samples : List (UDPData α)) :
    ∀ st : ReceiveState α,
      receiverThread nbPlayers (samples.map (fun d => (true, d))) st =
        (applySamples nbPlayers st samples).map (fun s => (false, s)) := by
  induction samples with
  | nil => intro st; rfl
  | cons e rest ih =>
    intro st
    cases h : applyReceived nbPlayers st e with
    | none => simp [receiverThread, applySamples, h]
    | some st1 => simp [receiverThread, applySamples, h, ih st1]

theorem drainLoop_valid {α : Type} (nbPlayers : Nat) (samples : List (UDPData α)) :
    ∀ (n : Nat) (st : ReceiveState α), samples.length ≤ n →
      (∀ d ∈ samples, d.valid = true) →
      drainLoop nbPlayers n samples st =
        (applySamples nbPlayers st samples).map (fun s => (s, [])) := by
  induction samples with
  | nil =>
    intro n st _ _
    cases n <;> rfl
  | cons e rest ih =>
    intro n st hlen hvalid
    cases n with
    | zero => simp at hlen
    | succ n =>
      have he : e.valid = true := hvalid e (List.mem_cons_self _ _)
      cases h : applyReceived nbPlayers st e with
      | none => simp [drainLoop, applySamples, h, he]
      | some st1 =>
        simp only [drainLoop, applySamples, h, he, Bool.not_true, Bool.false_eq_true, if_false]
        exact ih n st1 (by simpa using hlen) (fun d hd => hvalid d (List.mem_cons_of_mem _ hd))

theorem applySamples_concat {α : Type} (nbPlayers : Nat) (a b : List (UDPData α)) :
    ∀ st : ReceiveState α,
      applySamples nbPlayers st (a ++ b) =
        (applySamples nbPlayers st a).bind (fun s => applySamples nbPlayers s b) := by
  induction a with
  | nil => intro st; rfl
  | cons e rest ih =>
    intro st
    cases h : applyReceived nbPlayers st e with
    | none => simp [applySamples, h]
    | some st1 => simp [applySamples, h, ih st1]

/-- One drain loop on a queue of valid datagrams applies the first `n` of them
and leaves the others waiting. -/
theorem drainLoop_take {α : Type} (nbPlayers : Nat) (queue : List (UDPData α)) :
    ∀ (n : Nat) (st : ReceiveState α), (∀ d ∈ queue, d.valid = true) →
      drainLoop nbPlayers n queue st =
        (applySamples nbPlayers st (queue.take n)).map (fun s => (s, queue.drop n)) := by
  induction queue with
  | nil =>
    intro n st _
    cases n <;> rfl
  | cons e rest ih =>
    intro n st hvalid
    cases n with
    | zero => rfl
    | succ n =>
      have he : e.valid = true := hvalid e (List.mem_cons_self _ _)
      cases h : applyReceived nbPlayers st e with
      | none => simp [drainLoop, applySamples, h, he]
      | some st1 =>
        simp only [drainLoop, applySamples, h, he, Bool.not_true, Bool.false_eq_true, if_false,
          List.take_succ_cons, List.drop_succ_cons]
        exact ih n st1 (fun d hd => hvalid d (List.mem_cons_of_mem _ hd))

theorem drainFrames_append {α : Type} (nbPlayers : Nat) (first second : List (List (UDPData α))) :
    ∀ (pending : List (UDPData α)) (st : ReceiveState α),
      drainFrames nbPlayers (first ++ second) pending st =
        (drainFrames nbPlayers first pending st).bind
          (fun r => drainFrames nbPlayers second r.2 r.1) := by
  induction first with
  | nil => intro pending st; rfl
  | cons a later ih =>
    intro pending st
    cases h : drainLoop nbPlayers nbPlayers (pending ++ a) st with
    | none => simp [drainFrames, h]
    | some r =>
      obtain ⟨st1, pending1⟩ := r
      simp [drainFrames, h, ih pending1 st1]

/-- Frames of valid datagrams apply a prefix of everything received so far, in
arrival order, and keep the rest waiting. -/
theorem drainFrames_prefix {α : Type} (nbPlayers : Nat) (frames : List (List (UDPData α))) :
    ∀ (pending : List (UDPData α)) (st : ReceiveState α),
      (∀ d ∈ pending ++ frames.flatten, d.valid = true) →
      ∃ consumed rest, consumed ++ rest = pending ++ frames.flatten ∧
        drainFrames nbPlayers frames pending st =
          (applySamples nbPlayers st consumed).map (fun s => (s, rest)) := by
  induction frames with
  | nil =>
    intro pending st _
    exact ⟨[], pending, by simp, rfl⟩
  | cons a later ih =>
    intro pending st hvalid
    have hva : ∀ d ∈ pending ++ a, d.valid = true := by
      intro d hd
      apply hvalid d
      simp only [List.flatten_cons, List.mem_append] at hd ⊢
      rcases hd with h | h
      · exact Or.inl h
      · exact Or.inr (Or.inl h)
    have hloop := drainLoop_take nbPlayers (pending ++ a) nbPlayers st hva
    cases happ : applySamples nbPlayers st ((pending ++ a).take nbPlayers) with
    | none =>
      refine ⟨(pending ++ a).take nbPlayers, (pending ++ a).drop nbPlayers ++ later.flatten,
        ?_, ?_⟩
      · rw [← List.append_assoc, List.take_append_drop]
        simp
      · rw [happ] at hloop
        simp [drainFrames, hloop, happ]
    | some st1 =>
      rw [happ] at hloop
      have hvl : ∀ d ∈ (pending ++ a).drop nbPlayers ++ later.flatten, d.valid = true := by
        intro d hd
        apply hvalid d
        simp only [List.flatten_cons, List.mem_append] at hd ⊢
        rcases hd with h | h
        · have := List.mem_append.mp (List.mem_of_mem_drop h)
          rcases this with h1 | h1
          · exact Or.inl h1
          · exact Or.inr (Or.inl h1)
        · exact Or.inr (Or.inr h)
      obtain ⟨consumed, rest, hsplit, hrun⟩ := ih ((pending ++ a).drop nbPlayers) st1 hvl
      refine ⟨(pending ++ a).take nbPlayers ++ consumed, rest, ?_, ?_⟩
      · rw [List.append_assoc, hsplit, ← List.append_assoc, List.take_append_drop]
        simp
      · rw [applySamples_concat, happ]
        simp only [drainFrames, hloop, Option.map_some', Option.some_bind]
        exact hrun

/-- Frames without new arrivals, at least as many as datagrams wait, apply all
the waiting datagrams when the capacity is positive. -/
theorem drainFrames_flush {α : Type} (nbPlayers : Nat) (hpos : 0 < nbPlayers) :
    ∀ (m : Nat) (pending : List (UDPData α)) (st : ReceiveState α),
      pending.length ≤ m → (∀ d ∈ pending, d.valid = true) →
      drainFrames nbPlayers (List.replicate m []) pending st =
        (applySamples nbPlayers st pending).map (fun s => (s, [])) := by
  intro m
  induction m with
  | zero =>
    intro pending st hlen _
    have hnil : pending = [] := List.length_eq_zero.mp (Nat.le_zero.mp hlen)
    subst hnil
    rfl
  | succ m ih =>
    intro pending st hlen hvalid
    have hloop := drainLoop_take nbPlayers pending nbPlayers st hvalid
    have hsplit : applySamples nbPlayers st pending =
        (applySamples nbPlayers st (pending.take nbPlayers)).bind
          (fun s => applySamples nbPlayers s (pending.drop nbPlayers)) := by
      rw [← applySamples_concat, List.take_append_drop]
    have hdrop : (pending.drop nbPlayers).length ≤ m := by
      rw [List.length_drop]
      omega
    rw [List.replicate_succ, hsplit]
    cases happ : applySamples nbPlayers st (pending.take nbPlayers) with
    | none =>
      rw [happ] at hloop
      simp [drainFrames, hloop]
    | some st1 =>
      rw [happ] at hloop
      simp only [drainFrames, List.append_nil, hloop, Option.map_some', Option.some_bind]
      exact ih (pending.drop nbPlayers) st1 hdrop
        (fun d hd => hvalid d (List.mem_of_mem_drop hd))

/-- The frames of `src/4` apply all of a sequence of valid datagrams, whatever
the frames in which they arrive, once enough frames have run. -/
theorem drainFrames_all {α : Type} (nbPlayers : Nat) (hpos : 0 < nbPlayers)
    (samples : List (UDPData α)) (hvalid : ∀ d ∈ samples, d.valid = true)
    (st0 st : ReceiveState α) (hrun : applySamples nbPlayers st0 samples = some st)
    (arrivals : List (List (UDPData α))) (m : Nat) (harr : arrivals.flatten = samples)
    (hm : samples.length ≤ m) :
    drainFrames nbPlayers (arrivals ++ List.replicate m []) [] st0 = some (st, []) := by
  obtain ⟨consumed, rest, hsplit, hfirst⟩ :=
    drainFrames_prefix nbPlayers arrivals [] st0 (by simpa [harr] using hvalid)
  simp only [List.nil_append, harr] at hsplit
  rw [← hsplit, applySamples_concat] at hrun
  cases hc : applySamples nbPlayers st0 consumed with
  | none => simp [hc] at hrun
  | some s1 =>
    rw [hc, Option.some_bind] at hrun
    have hrest : ∀ d ∈ rest, d.valid = true := by
      intro d hd
      exact hvalid d (by rw [← hsplit]; exact List.mem_append_right _ hd)
    have hlen : rest.length ≤ m := by
      have : samples.length = consumed.length + rest.length := by
        rw [← hsplit, List.length_append]
      omega
    rw [drainFrames_append, hfirst, hc]
    simp only [Option.map_some', Option.some_bind]
    rw [drainFrames_flush nbPlayers hpos m rest s1 hlen hrest, hrun]
    rfl

/-- State of the receive path after a sequence of valid samples: the registry
invariant holds, the store keeps its size, and each slot holds the position of
the last sample bound to it, or its initial content when there is none. -/
theorem applySamples_inv {α : Type} (nbPlayers : Nat) (store0 : List (α × α))
    (hpos : 0 < nbPlayers) (hfit : (nbPlayers : Int) ≤ INT_MAX)
    (hcap : store0.length = nbPlayers) (samples : List (UDPData α))
    (hvalid : ∀ d ∈ samples, d.valid = true) :
    ∃ st, applySamples nbPlayers ⟨emptyRegistry, store0⟩ samples = some st ∧
      RegistryInv nbPlayers st.registry (samples.map (fun d => d.sender)) ∧
      st.map.length = nbPlayers ∧
      ∀ i : Nat, i < nbPlayers →
        st.map[i]? =
          ((samplesOfIndex st.registry (i : Int) samples).getLast?.map
            (fun d => d.position)).or store0[i]? := by
  induction samples using List.reverseRecOn with
  | nil =>
    refine ⟨⟨emptyRegistry, store0⟩, rfl, registryInv_empty nbPlayers, hcap, ?_⟩
    intro i _
    simp [samplesOfIndex]
  | append_singleton l d ih =>
    obtain ⟨st, hrun, hinv, hlen, hslots⟩ :=
      ih (fun e he => hvalid e (List.mem_append_left _ he))
    have hd : d.valid = true := hvalid d (List.mem_append_right _ (List.mem_singleton_self _))
    obtain ⟨r1, hreg, hinv1⟩ :=
      registerSender_inv nbPlayers st.registry (l.map (fun d => d.sender)) d.sender hpos hfit hinv
    have hm : firstSeenRank (l.map (fun d => d.sender) ++ [d.sender]) d.sender % nbPlayers
        < nbPlayers := Nat.mod_lt _ hpos
    generalize hmdef :
      firstSeenRank (l.map (fun d => d.sender) ++ [d.sender]) d.sender % nbPlayers = m
      at hreg hm
    have hstep : applyReceived nbPlayers st d = some ⟨r1, st.map.set m d.position⟩ := by
      simp [applyReceived, hd, hreg, movePlayer]
    have hmap : (l ++ [d]).map (fun d => d.sender) = l.map (fun d => d.sender) ++ [d.sender] := by
      simp
    refine ⟨⟨r1, st.map.set m d.position⟩, ?_, ?_, ?_, ?_⟩
    · rw [applySamples_append, hrun]
      exact hstep
    · rw [hmap]
      exact hinv1
    · simpa using hlen
    · intro i hi
      have hold : ∀ e ∈ l, mapFind r1.playersIndexes e.sender =
          mapFind st.registry.playersIndexes e.sender := by
        intro e he
        have hmem : e.sender ∈ l.map (fun d => d.sender) := List.mem_map_of_mem _ he
        rw [hinv1.1 e.sender, hinv.1 e.sender, if_pos hmem,
          if_pos (List.mem_append_left _ hmem), firstSeenRank_append_of_mem _ _ _ hmem]
      have hfilter : samplesOfIndex r1 (i : Int) l = samplesOfIndex st.registry (i : Int) l := by
        unfold samplesOfIndex
        apply List.filter_congr
        intro e he
        rw [hold e he]
      have hbound : mapFind r1.playersIndexes d.sender = some (m : Int) := by
        rw [hinv1.1 d.sender, if_pos (List.mem_append_right _ (List.mem_singleton_self _)),
          hmdef]
      have hsplit : samplesOfIndex r1 (i : Int) (l ++ [d]) =
          samplesOfIndex st.registry (i : Int) l ++ (if m = i then [d] else []) := by
        have : samplesOfIndex r1 (i : Int) (l ++ [d]) =
            samplesOfIndex r1 (i : Int) l ++ samplesOfIndex r1 (i : Int) [d] := by
          simp [samplesOfIndex]
        rw [this, hfilter]
        congr 1
        by_cases hmi : m = i
        · simp [samplesOfIndex, hbound, hmi]
        · simp [samplesOfIndex, hbound, hmi]
      show (st.map.set m d.position)[i]? = _
      rw [hsplit]
      by_cases hmi : m = i
      · subst hmi
        rw [if_pos rfl, List.getLast?_concat]
        simp [List.getElem?_set_self (by omega : m < st.map.length)]
      · rw [if_neg hmi, List.append_nil, List.getElem?_set_ne hmi]
        exact hslots i hi

/-- C6, as stated, fails at capacity 0 (no configured peer): in `src/3` the
first valid sample of A makes the registration evaluate `1 % 0`, and in `src/4`
the drain loop `for (i = 0; i < 0; i++)` never runs, so A's samples (1.0, 2.0)
and (3.0, 4.0) stay waiting frame after frame, A gets no index and nothing is
stored. -/
theorem last_write_wins_counterexample :
    receiverThread 0
        [(true, ⟨true, "A", ((1.0 : ℚ), (2.0 : ℚ))⟩), (true, ⟨true, "A", (3.0, 4.0)⟩)]
        ⟨emptyRegistry, []⟩ = none ∧
      drainFrames 0
        [[⟨true, "A", ((1.0 : ℚ), (2.0 : ℚ))⟩, ⟨true, "A", (3.0, 4.0)⟩], [], []] []
        ⟨emptyRegistry, []⟩ =
          some (⟨emptyRegistry, []⟩,
            [⟨true, "A", ((1.0 : ℚ), (2.0 : ℚ))⟩, ⟨true, "A", (3.0, 4.0)⟩]) ∧
      mapFind emptyRegistry.playersIndexes "A" = none ∧
      ([] : List (ℚ × ℚ))[0]? ≠ some ((3.0, 4.0) : ℚ × ℚ) := by
  exact ⟨by decide, rfl, by decide, by simp⟩

/-- C6, amended. Last write wins for a capacity of at least 1 (fitting `int`):
valid samples applied in order by the receive path from the empty registry all
get applied, by the receiver thread of `src/3` and by the frames of `src/4`
(whatever the frames in which the samples arrive, each frame draining at most
`nbPlayers` of them, once enough frames have run), and afterwards the position
stored at the index of any identity that occurred is the position of the last
sample of the sequence whose identity is bound to that index. In particular two
samples of one peer leave the second position at its index. -/
theorem last_write_wins {α : Type} (nbPlayers : Nat) (store0 : List (α × α))
    (samples : List (UDPData α)) (hpos : 0 < nbPlayers) (hfit : (nbPlayers : Int) ≤ INT_MAX)
    (hcap : store0.length = nbPlayers) (hvalid : ∀ d ∈ samples, d.valid = true) :
    ∃ st,
      receiverThread nbPlayers (samples.map (fun d => (true, d))) ⟨emptyRegistry, store0⟩ =
        some (false, st) ∧
      (samples.length ≤ nbPlayers →
        drainLoop nbPlayers nbPlayers samples ⟨emptyRegistry, store0⟩ = some (st, [])) ∧
      (∀ (arrivals : List (List (UDPData α))) (m : Nat),
        arrivals.flatten = samples → samples.length ≤ m →
        drainFrames nbPlayers (arrivals ++ List.replicate m []) [] ⟨emptyRegistry, store0⟩ =
          some (st, [])) ∧
      (∀ d ∈ samples, ∃ index last,
        mapFind st.registry.playersIndexes d.sender = some index ∧
        0 ≤ index ∧ index < (nbPlayers : Int) ∧
        (samplesOfIndex st.registry index samples).getLast? = some last ∧
        st.map[index.toNat]? = some last.position) ∧
      (∀ (a : String) (p1 p2 : α × α), samples = [⟨true, a, p1⟩, ⟨true, a, p2⟩] →
        mapFind st.registry.playersIndexes a = some 0 ∧ st.map[0]? = some p2) := by
  obtain ⟨st, hrun, hinv, hlen, hslots⟩ :=
    applySamples_inv nbPlayers store0 hpos hfit hcap samples hvalid
  have hgeneral : ∀ d ∈ samples, ∃ index last,
      mapFind st.registry.playersIndexes d.sender = some index ∧
      0 ≤ index ∧ index < (nbPlayers : Int) ∧
      (samplesOfIndex st.registry index samples).getLast? = some last ∧
      st.map[index.toNat]? = some last.position := by
    intro d hd
    have hmem : d.sender ∈ samples.map (fun d => d.sender) := List.mem_map_of_mem _ hd
    have hbound := hinv.1 d.sender
    rw [if_pos hmem] at hbound
    have hm : firstSeenRank (samples.map (fun d => d.sender)) d.sender % nbPlayers < nbPlayers :=
      Nat.mod_lt _ hpos
    generalize firstSeenRank (samples.map (fun d => d.sender)) d.sender % nbPlayers = m
      at hbound hm
    have hin : d ∈ samplesOfIndex st.registry (m : Int) samples := by
      unfold samplesOfIndex
      exact List.mem_filter.mpr ⟨hd, by simp [hbound]⟩
    have hne : samplesOfIndex st.registry (m : Int) samples ≠ [] := List.ne_nil_of_mem hin
    have hlast : (samplesOfIndex st.registry (m : Int) samples).getLast? =
        some ((samplesOfIndex st.registry (m : Int) samples).getLast hne) :=
      List.getLast?_eq_getLast _ hne
    refine ⟨(m : Int), _, hbound, Int.natCast_nonneg _, Int.ofNat_lt.mpr hm, hlast, ?_⟩
    have hslot := hslots m hm
    rw [hlast] at hslot
    simpa using hslot
  refine ⟨st, ?_, ?_, ?_, hgeneral, ?_⟩
  · rw [receiverThread_running, hrun]
    rfl
  · intro hfew
    rw [drainLoop_valid nbPlayers samples nbPlayers _ hfew hvalid, hrun]
    rfl
  · intro arrivals m harr hm
    exact drainFrames_all nbPlayers hpos samples hvalid _ st hrun arrivals m harr hm
  · intro a p1 p2 hs
    subst hs
    have hbound := hinv.1 a
    simp only [List.map_cons, List.map_nil, List.mem_cons, true_or, if_true] at hbound
    have hrank : firstSeenRank [a, a] a = 0 := by simp [firstSeenRank]
    rw [hrank, Nat.zero_mod] at hbound
    have hslot := hslots 0 hpos
    have hfilter : samplesOfIndex st.registry ((0 : Nat) : Int)
        [(⟨true, a, p1⟩ : UDPData α), ⟨true, a, p2⟩] = [⟨true, a, p1⟩, ⟨true, a, p2⟩] := by
      simp [samplesOfIndex, hbound]
    rw [hfilter] at hslot
    exact ⟨hbound, by simpa using hslot⟩

theorem last_write_wins_witness :
    ((0 < 1 ∧ ((1 : Nat) : Int) ≤ INT_MAX) ∧ ([((0 : ℚ), (0 : ℚ))].length = 1)) ∧
    ∃ st : ReceiveState ℚ,
      receiverThread 1 [(true, ⟨true, "A", (1.0, 2.0)⟩), (true, ⟨true, "A", (3.0, 4.0)⟩)]
        ⟨emptyRegistry, [(0, 0)]⟩ = some (false, st) ∧
      drainFrames 1 ([[⟨true, "A", (1.0, 2.0)⟩, ⟨true, "A", (3.0, 4.0)⟩]] ++ List.replicate 2 [])
        [] ⟨emptyRegistry, [(0, 0)]⟩ = some (st, []) ∧
      mapFind st.registry.playersIndexes "A" = some 0 ∧
      st.map[0]? = some ((3.0, 4.0) : ℚ × ℚ) :=
  ⟨⟨⟨by decide, by decide⟩, rfl⟩,
    match last_write_wins 1 [((0 : ℚ), (0 : ℚ))]
        [⟨true, "A", (1.0, 2.0)⟩, ⟨true, "A", (3.0, 4.0)⟩] (by decide) (by decide) rfl
        (by simp) with
    | ⟨st, h1, _, h3, _, h5⟩ =>
      ⟨st, h1, h3 [[⟨true, "A", (1.0, 2.0)⟩, ⟨true, "A", (3.0, 4.0)⟩]] 2 (by simp) (by simp),
        (h5 "A" (1.0, 2.0) (3.0, 4.0) rfl).1, (h5 "A" (1.0, 2.0) (3.0, 4.0) rfl).2⟩⟩

/-! ## Event-driven sender: lemmas -/

/-- Once `running` is false the sender thread sends nothing and is or stays
returned after one scheduling. -/
theorem senderStep_stopped {α : Type} (nbSenders : Nat) (k : Nat) :
    ∀ w : SenderWorld α, w.running = false →
      ((senderStep nbSenders)^[k + 1] w).sent = w.sent ∧
        ((senderStep nbSenders)^[k + 1] w).pc = SenderPc.done := by
  induction k with
  | zero =>
    intro w hr
    simp only [Nat.zero_add, Function.iterate_one]
    unfold senderStep
    cases hpc : w.pc <;> simp [hr, hpc]
  | succ k ih =>
    intro w hr
    have hstep : (senderStep nbSenders w).sent = w.sent ∧
        (senderStep nbSenders w).running = false := by
      unfold senderStep
      cases hpc : w.pc <;> simp [hr]
    obtain ⟨h1, h2⟩ := ih (senderStep nbSenders w) hstep.2
    rw [Function.iterate_succ_apply]
    exact ⟨h1.trans hstep.1, h2⟩

/-- C9. No work after stop: after the stop signal the sender thread of `src/4`,
wherever it stands and even with `positionChanged` still true, is returned
after its next scheduling and never transmits again; the receiver thread of
`src/3` that reads `running == false` at its loop test returns at once, so that
its state is the one left by the datagrams received before and neither the
pending datagram nor any later one is registered or applied. -/
theorem no_work_after_stop {α : Type} (nbPlayers : Nat) :
    (∀ (w : SenderWorld α) (k : Nat),
      ((senderStep nbPlayers)^[k + 1] (signalStop w)).sent = w.sent ∧
        ((senderStep nbPlayers)^[k + 1] (signalStop w)).pc = SenderPc.done) ∧
    (∀ (st : ReceiveState α) (received : UDPData α) (rest : List (Bool × UDPData α)),
      receiverThread nbPlayers ((false, received) :: rest) st = some (true, st)) ∧
    (∀ (st : ReceiveState α) (before : List (UDPData α)) (received : UDPData α)
        (rest : List (Bool × UDPData α)),
      receiverThread nbPlayers (before.map (fun d => (true, d)) ++ (false, received) :: rest) st =
        (applySamples nbPlayers st before).map (fun s => (true, s))) := by
  refine ⟨?_, ?_, ?_⟩
  · intro w k
    exact senderStep_stopped nbPlayers k (signalStop w) rfl
  · intro st received rest
    rfl
  · intro st before
    induction before generalizing st with
    | nil =>
      intro received rest
      rfl
    | cons e tail ih =>
      intro received rest
      cases h : applyReceived nbPlayers st e with
      | none => simp [receiverThread, applySamples, h]
      | some st1 =>
        simp only [List.map_cons, List.cons_append, receiverThread, applySamples, h,
          Bool.not_true, Bool.false_eq_true, if_false]
        exact ih st1 received rest

/-! ## Lock discipline -/

theorem drawVertLineEvents_unguarded (yStart yEnd : Int) (h : yStart ≤ yEnd) :
    frontGuarded false (drawVertLineEvents yStart yEnd) = false := by
  unfold drawVertLineEvents
  obtain ⟨n, hn⟩ : ∃ n : Nat, (yEnd - yStart + 1).toNat = n + 1 := ⟨(yEnd - yStart).toNat, by omega⟩
  rw [hn, List.replicate_succ]
  simp [frontGuarded]

/-- C8 fails on `drawVertLine`: `drawPixel` and `swap` access `frontBuffer` only
with the mutex held, but `drawVertLine` on rows 0 to 1 writes `frontBuffer`
twice without ever acquiring it. -/
theorem drawVertLine_not_lock_guarded :
    frontGuarded false drawPixelEvents = true ∧ frontGuarded false swapEvents = true ∧
      drawVertLineEvents 0 1 = [BufferEvent.accessFront, BufferEvent.accessFront] ∧
      frontGuarded false (drawVertLineEvents 0 1) = false := by
  decide

end Raycasting
